import Mathlib

/-!
Shallow embedding of `src/src/dentist.cpp` (the DENTIST summary-statistic QC
algorithm, Rcpp/Armadillo implementation) and proofs about it.

Modelling conventions:
* `double` values are modelled as `ℚ`; machine floating point is not modelled.
* The trusted external libraries (Armadillo's symmetric eigendecomposition,
  `std::sqrt`, `arma::chi2cdf`/`log10`, and the seeded `std::mt19937` draw
  sequence) are passed in as oracle functions: the code under verification
  only consumes their outputs.
* Vectors indexed by marker id are modelled as total functions `ℕ → ℚ`;
  `std::vector` reads use `List.getD` with default `0` (an out-of-range read
  is undefined behaviour in the source; the places where that can happen are
  noted in comments).
* `Rcpp::stop` aborts the whole computation, so fallible functions return
  `Except DError _`; the error constructors correspond to the spec's error
  kinds (RankDeficiency, DegenerateResidual), to `std::vector::at` throwing
  `std::out_of_range`, and to exhaustion of the fuel that bounds the
  duplicate-retry loop of `generateSetOfNumbers` (the source loop is
  unbounded; `none`/`rngFuelExhausted` for every fuel models divergence).
-/

/-- Comparator used by `sort_indexes` (dentist.cpp:28): order index `i1` before
`i2` when `v[i1] < v[i2]`.  `std::sort` leaves the order of ties unspecified;
we resolve ties by index (in `generateSetOfNumbers` the values are pairwise
distinct, so no tie ever arises there). -/
def idxLt (v : List ℕ) (i j : ℕ) : Prop :=
  v.getD i 0 < v.getD j 0 ∨ (v.getD i 0 = v.getD j 0 ∧ i ≤ j)

instance (v : List ℕ) : DecidableRel (idxLt v) := fun i j => by
  unfold idxLt; infer_instance

/-- `sort_indexes` (dentist.cpp:25-30): indices `0,…,theSize-1` sorted by the
corresponding values of `v`. -/
def sort_indexes (v : List ℕ) : List ℕ :=
  List.insertionSort (idxLt v) (List.range v.length)

/-- `INT_MAX`: upper bound of `std::uniform_int_distribution<int> dist(0, INT_MAX)`
(dentist.cpp:36). -/
def intMax : ℕ := 2 ^ 31 - 1

/-- The duplicate-retry `do … while` loop of `generateSetOfNumbers`
(dentist.cpp:42-54): draw `stream pos`, retry while the draw already occurs in
`numbers`.  `fuel` bounds the number of retries; the source loop is unbounded,
so returning `none` for every fuel models divergence. -/
def drawUnique (stream : ℕ → ℕ) (numbers : List ℕ) : ℕ → ℕ → Option (ℕ × ℕ)
  | _, 0 => none
  | pos, fuel + 1 =>
    if stream pos ∈ numbers then drawUnique stream numbers (pos + 1) fuel
    else some (stream pos, pos + 1)

/-- The outer `for (index = 1; index < SIZE; index++)` loop of
`generateSetOfNumbers` (dentist.cpp:40-57): `numbers` is the list filled so
far, `pos` the number of draws consumed from the stream, `remaining` how many
entries are still to be filled. -/
def fillNumbers (stream : ℕ → ℕ) (fuel : ℕ) : List ℕ → ℕ → ℕ → Option (List ℕ)
  | numbers, _, 0 => some numbers
  | numbers, pos, remaining + 1 =>
    match drawUnique stream numbers pos fuel with
    | none => none
    | some (tempNum, pos1) => fillNumbers stream fuel (numbers ++ [tempNum]) pos1 remaining

/-- `generateSetOfNumbers` (dentist.cpp:33-61): fill `SIZE` pairwise-distinct
draws from the seeded stream (the first draw, dentist.cpp:39, is not
uniqueness-checked), then return `sort_indexes` of them.  For `SIZE = 0` the
source writes `numbers[0]` into an empty vector (out of bounds); we model the
result as the empty permutation. -/
def generateSetOfNumbers (stream : ℕ → ℕ) (SIZE : ℕ) (fuel : ℕ) : Option (List ℕ) :=
  if SIZE = 0 then some []
  else
    match fillNumbers stream fuel [stream 0] 1 (SIZE - 1) with
    | none => none
    | some numbers => some (sort_indexes numbers)

/-- The bisection loops of `dentist` (dentist.cpp:199-202 and 276-282): each
`i` of `active` goes to the reference half when `randOrder[i] > half`, else to
the target half.  In the re-partition (dentist.cpp:279-282) the source indexes
`randOrder` (length = `|fullIdx|`) by marker ids that may be out of range
(undefined behaviour); the model reads those positions as `0` via `getD`. -/
def partitionIdx (randOrder : List ℕ) (active : List ℕ) (half : ℕ) : List ℕ × List ℕ :=
  (active.filter (fun i => half < randOrder.getD i 0),
   active.filter (fun i => ¬ half < randOrder.getD i 0))

/-- `getQuantile` (dentist.cpp:64-69): sort ascending, read position
`ceil(size · q) − 1` with `std::vector::at`.  The position is computed in
unsigned arithmetic from a `double`; a negative value (empty input, or
`q = 0`) is out of range of `size_t`, so `.at` faults — modelled, like any
out-of-range position, as `none`. -/
def getQuantile (dat : List ℚ) (whichQuantile : ℚ) : Option ℚ :=
  let sortedData := List.insertionSort (· ≤ ·) dat
  let pos : ℤ := ⌈(dat.length : ℚ) * whichQuantile⌉ - 1
  if 0 ≤ pos ∧ pos < (dat.length : ℤ) then some (sortedData.getD pos.toNat 0) else none

/-- `getQuantile2` (dentist.cpp:72-77): keep the values whose group label is
`1`; with fewer than 50 such values return `0`, else take `getQuantile` of
them. -/
def getQuantile2 (dat : List ℚ) (grouping : List ℕ) (q : ℚ) : Option ℚ :=
  let filteredData :=
    ((List.range dat.length).filter (fun i => grouping.getD i 0 = 1)).map (fun i => dat.getD i 0)
  if filteredData.length < 50 then some 0 else getQuantile filteredData q

/-- Modelled from the spec: the elementwise logical complement of a group-label
vector, used for the group-0 threshold.  The source writes `!grouping_tmp` on a
`std::vector<uint>` (dentist.cpp:234), which is ill-formed C++ (no logical
negation on a vector; the adjacent comment reads "Adapt based on the actual
logic for inverse grouping").  Per the spec, the intent is the elementwise
complement: C++ `!` on an integer maps `0` to `1` and nonzero to `0`. -/
def notGrouping (grouping : List ℕ) : List ℕ :=
  grouping.map (fun g => if g = 0 then 1 else 0)

/-- Error outcomes of the computation.  `rankDeficiency` and
`degenerateResidual` are the two `Rcpp::stop` calls (dentist.cpp:123 and 144);
`quantileOutOfRange` is `std::vector::at` throwing in `getQuantile`;
`rngFuelExhausted` marks exhaustion of the fuel bounding the source's
unbounded duplicate-retry loop. -/
inductive DError where
  | rankDeficiency : DError
  | degenerateResidual : ℚ → DError
  | quantileOutOfRange : DError
  | rngFuelExhausted : DError
deriving DecidableEq

/-- The three per-marker output vectors written by `oneIteration`. -/
structure IterState where
  imputedZ : ℕ → ℚ
  rsqList : ℕ → ℚ
  zScore_e : ℕ → ℚ

/-- Pointwise update of a marker-indexed vector. -/
def updFn {α : Type} (f : ℕ → α) (j : ℕ) (v : α) : ℕ → α :=
  fun x => if x = j then v else f x

/-- Sum of `f 0 + … + f (n-1)`, the matrix-product sums of dentist.cpp:135-137. -/
def sumR (n : ℕ) (f : ℕ → ℚ) : ℚ :=
  ((List.range n).map f).sum

/-- Output of the trusted symmetric eigendecomposition `arma::eig_sym`
(dentist.cpp:116): eigenvalues (Armadillo returns them in ascending order —
theorems that need that order state it as a hypothesis) and eigenvector
columns. -/
structure EigPair where
  eigval : ℕ → ℚ
  eigvec : ℕ → ℕ → ℚ

/-- An eigendecomposition oracle: size and matrix to `EigPair`. -/
def EigOracle : Type := ℕ → (ℕ → ℕ → ℚ) → EigPair

section OneIteration

variable (eig : EigOracle) (sqrtO : ℚ → ℚ) (LDmat : ℕ → ℕ → ℚ) (idx idx2 : List ℕ)
variable (zScore : ℕ → ℚ) (nSample : ℕ) (propSVD : ℚ)

/-- `VV` (dentist.cpp:95,105-111): the reference-set submatrix of the LD matrix. -/
def oneIterVV : ℕ → ℕ → ℚ :=
  fun i j => LDmat (idx.getD i 0) (idx.getD j 0)

/-- `LD_it` (dentist.cpp:93,98-103): the target × reference submatrix. -/
def oneIterLD_it : ℕ → ℕ → ℚ :=
  fun i k => LDmat (idx2.getD i 0) (idx.getD k 0)

/-- The eigendecomposition of `VV` (dentist.cpp:114-116). -/
def oneIterEig : EigPair :=
  eig idx.length (oneIterVV LDmat idx)

/-- `K` before capping (dentist.cpp:91):
`min(idx.size(), nSample) * probSVD` truncated to an unsigned integer. -/
def oneIterK0 : ℕ :=
  (⌊((min idx.length nSample : ℕ) : ℚ) * propSVD⌋).toNat

/-- `nZeros` (dentist.cpp:119): the number of eigenvalues below the `0.0001`
tolerance. -/
def oneIterNZeros : ℕ :=
  ((List.range idx.length).filter (fun p => (oneIterEig eig LDmat idx).eigval p < 1 / 10000)).length

/-- The capped truncation rank: `K = min(K, nRank)` with
`nRank = n_rows - nZeros` (dentist.cpp:118-121). -/
def oneIterKcap : ℕ :=
  min (oneIterK0 idx nSample propSVD) (idx.length - oneIterNZeros eig LDmat idx)

/-- `ui` (dentist.cpp:126-130): column `m` is eigenvector column `n - m - 1`. -/
def oneIterUi : ℕ → ℕ → ℚ :=
  fun k m => (oneIterEig eig LDmat idx).eigvec k (idx.length - m - 1)

/-- `wi` (dentist.cpp:127-131): diagonal of reciprocal eigenvalues. -/
def oneIterWi : ℕ → ℚ :=
  fun m => 1 / (oneIterEig eig LDmat idx).eigval (idx.length - m - 1)

/-- `beta = LD_it * ui * wi` (dentist.cpp:135). -/
def oneIterBeta : ℕ → ℕ → ℚ :=
  fun i m =>
    (sumR idx.length (fun k => oneIterLD_it LDmat idx idx2 i k * oneIterUi eig LDmat idx k m)) *
      oneIterWi eig LDmat idx m

/-- `ui.t() * zScore_eigen` (dentist.cpp:136), with
`zScore_eigen(k) = zScore[idx[k]]` (dentist.cpp:107). -/
def oneIterUtz : ℕ → ℚ :=
  fun m => sumR idx.length (fun k => oneIterUi eig LDmat idx k m * zScore (idx.getD k 0))

/-- `zScore_eigen_imp = beta * (ui.t() * zScore_eigen)` (dentist.cpp:136). -/
def oneIterZimp : ℕ → ℚ :=
  fun i =>
    sumR (oneIterKcap eig LDmat idx nSample propSVD)
      (fun m => oneIterBeta eig LDmat idx idx2 i m * oneIterUtz eig LDmat idx zScore m)

/-- `rsq_eigen = diag(beta * (ui.t() * LD_it.t()))` (dentist.cpp:137). -/
def oneIterRsq : ℕ → ℚ :=
  fun i =>
    sumR (oneIterKcap eig LDmat idx nSample propSVD)
      (fun m => oneIterBeta eig LDmat idx idx2 i m *
        sumR idx.length (fun k => oneIterUi eig LDmat idx k m * oneIterLD_it LDmat idx idx2 i k))

/-- The result-scatter loop of `oneIteration` (dentist.cpp:139-148), sequential
semantics of the parallel-for (each loop body writes disjoint slots `idx2[i]`):
write `imputedZ` and `rsqList`, abort with `DegenerateResidual` when the R²
reaches 1, else write the adjusted statistic `zScore_e`. -/
def scatterLoop (zimp rsqe : ℕ → ℚ) : List ℕ → IterState → Except DError IterState
  | [], st => .ok st
  | i :: rest, st =>
    let j := idx2.getD i 0
    let st1 : IterState := ⟨updFn st.imputedZ j (zimp i), updFn st.rsqList j (rsqe i), st.zScore_e⟩
    if 1 ≤ rsqe i then .error (.degenerateResidual (rsqe i))
    else
      let st2 : IterState :=
        ⟨st1.imputedZ, st1.rsqList,
         updFn st1.zScore_e j
           ((zScore j - st1.imputedZ j) / sqrtO (LDmat j j - st1.rsqList j))⟩
      scatterLoop zimp rsqe rest st2

/-- `oneIteration` (dentist.cpp:86-149): abort with `RankDeficiency` when the
capped truncation rank is ≤ 1 (dentist.cpp:122-124), else run the result
scatter over all target positions. -/
def oneIteration (st : IterState) : Except DError IterState :=
  if oneIterKcap eig LDmat idx nSample propSVD ≤ 1 then .error .rankDeficiency
  else
    scatterLoop sqrtO LDmat idx2 zScore
      (oneIterZimp eig LDmat idx idx2 zScore nSample propSVD)
      (oneIterRsq eig LDmat idx idx2 nSample propSVD)
      (List.range idx2.length) st

end OneIteration

/-- The trusted external collaborators of `dentist`, per spec §1 (out of
scope, consumed through interfaces): the eigendecomposition, `std::sqrt`,
the chi-squared −log10 p-value `minusLogPvalueChisq2` (dentist.cpp:80-83,
via `arma::chi2cdf`), `-log10`, and the seeded `std::mt19937` draw sequence. -/
structure Oracles where
  eig : EigOracle
  sqrtO : ℚ → ℚ
  mlogpChisq : ℚ → ℚ
  neglog10 : ℚ → ℚ
  stream : ℤ → ℕ → ℕ

/-- The per-marker state of `dentist` (dentist.cpp:211-214 and the index
vectors of dentist.cpp:196). -/
structure DState where
  imputedZ : ℕ → ℚ
  rsq : ℕ → ℚ
  zScore_e : ℕ → ℚ
  iterID : ℕ → ℤ
  fullIdx : List ℕ
  idx : List ℕ
  idx2 : List ℕ

/-- Ghost record of what one round of the loop used and produced: the
reference and target sets it imputed with, the QC'd target subset, and the
active set it hands to the next round.  Pure instrumentation — it feeds no
computation. -/
structure RoundInfo where
  idxUsed : List ℕ
  idx2Used : List ℕ
  idx2QCed : List ℕ
  fullIdxAfter : List ℕ

/-- The `IterState` view of a `DState`. -/
def iterStateOf (st : DState) : IterState :=
  ⟨st.imputedZ, st.rsq, st.zScore_e⟩

/-- `groupingGWAS` (dentist.cpp:204-209): label `1` iff
`minusLogPvalueChisq2(z²) > -log10(groupingPvalue_thresh)`. -/
def groupingGWASOf (O : Oracles) (zScore : ℕ → ℚ) (thresh : ℚ) : ℕ → ℕ :=
  fun i => if O.neglog10 thresh < O.mlogpChisq (zScore i * zScore i) then 1 else 0

/-- The survivor filter of dentist.cpp:248-256: walk `fullIdx`, keep the
markers whose absolute adjusted statistic is within the threshold of their
group, incrementing `iterID` for each survivor. -/
def survivorFilter (grouping : ℕ → ℕ) (z_e : ℕ → ℚ) (th1 th0 : ℚ) :
    List ℕ → (ℕ → ℤ) → (List ℕ × (ℕ → ℤ))
  | [], iterID => ([], iterID)
  | i :: rest, iterID =>
    if (grouping i = 1 ∧ |z_e i| ≤ th1) ∨ (grouping i = 0 ∧ |z_e i| ≤ th0) then
      let p := survivorFilter grouping z_e th1 th0 rest (updFn iterID i (iterID i + 1))
      (i :: p.1, p.2)
    else survivorFilter grouping z_e th1 th0 rest iterID

/-- Modelled from the spec: the genomic-control branch (dentist.cpp:259-272).
The source references a collection `chisq` that is declared nowhere in the
translation unit (the file does not compile as written); per spec §9 the
intended collection is the chi-squared statistics of the current survivors'
adjusted statistics.  Median via `nth_element` at position `size/2`, inflation
factor `median / 0.456`, and every member of `fullIdx` whose inflation-scaled
squared adjusted statistic is below `pValueThreshold` is appended again. -/
def gcExtra (z_e : ℕ → ℚ) (pValueThreshold : ℚ) (fullIdx : List ℕ) : List ℕ :=
  let chisq := fullIdx.map (fun i => z_e i ^ 2)
  let sorted := List.insertionSort (· ≤ ·) chisq
  let medianChisq := sorted.getD (chisq.length / 2) 0
  let inflationFactor := medianChisq / (456 / 1000)
  fullIdx.filter (fun i => z_e i ^ 2 / inflationFactor < pValueThreshold)

section DentistLoop

variable (O : Oracles) (LDmat : ℕ → ℕ → ℚ) (nSample : ℕ) (zScore : ℕ → ℚ)
variable (pValueThreshold propSVD : ℚ) (gcControl : Bool) (grouping : ℕ → ℕ) (fuel : ℕ)

/-- One round of the `for (t = 0; t < nIter; t++)` loop (dentist.cpp:216-283):
impute on the current partition, compute the three thresholds, QC the target
set, re-impute, filter the active set (optionally extended by the
genomic-control branch), and re-partition for the next round. -/
def dentistRound (t : ℕ) (st : DState) : Except DError (DState × RoundInfo) :=
  match oneIteration O.eig O.sqrtO LDmat st.idx st.idx2 zScore nSample propSVD (iterStateOf st) with
  | .error e => .error e
  | .ok s1 =>
    let diff := st.idx2.map (fun j => |s1.zScore_e j|)
    let grouping_tmp := st.idx2.map grouping
    match getQuantile diff (995 / 1000) with
    | none => .error .quantileOutOfRange
    | some _threshold =>
      match getQuantile2 diff grouping_tmp (995 / 1000) with
      | none => .error .quantileOutOfRange
      | some threshold1 =>
        match getQuantile2 diff (notGrouping grouping_tmp) (995 / 1000) with
        | none => .error .quantileOutOfRange
        | some threshold0 =>
          let idx2_QCed :=
            ((List.range st.idx2.length).filter (fun i =>
                (grouping_tmp.getD i 0 = 1 ∧ diff.getD i 0 ≤ threshold1) ∨
                (grouping_tmp.getD i 0 = 0 ∧ diff.getD i 0 ≤ threshold0))).map
              (fun i => st.idx2.getD i 0)
          match oneIteration O.eig O.sqrtO LDmat st.idx idx2_QCed zScore nSample propSVD s1 with
          | .error e => .error e
          | .ok s2 =>
            let fp := survivorFilter grouping s2.zScore_e threshold1 threshold0 st.fullIdx st.iterID
            let fullIdx_tmp :=
              if gcControl then fp.1 ++ gcExtra s2.zScore_e pValueThreshold st.fullIdx else fp.1
            match generateSetOfNumbers (O.stream (20000 + t * 20000)) fullIdx_tmp.length fuel with
            | none => .error .rngFuelExhausted
            | some randOrder =>
              let pr := partitionIdx randOrder fullIdx_tmp (fullIdx_tmp.length / 2)
              .ok (⟨s2.imputedZ, s2.rsqList, s2.zScore_e, fp.2, fullIdx_tmp, pr.1, pr.2⟩,
                   ⟨st.idx, st.idx2, idx2_QCed, fullIdx_tmp⟩)

/-- The outer loop of `dentist`: `remaining` rounds starting at round index
`t`, returning the final state and the ghost per-round records. -/
def dentistLoop : ℕ → ℕ → DState → Except DError (DState × List RoundInfo)
  | _, 0, st => .ok (st, [])
  | t, remaining + 1, st =>
    match dentistRound O LDmat nSample zScore pValueThreshold propSVD gcControl grouping fuel t st with
    | .error e => .error e
    | .ok (st1, info) =>
      match dentistLoop (t + 1) remaining st1 with
      | .error e => .error e
      | .ok (stF, infos) => .ok (stF, info :: infos)

end DentistLoop

/-- `dentist` (dentist.cpp:188-291): initial permutation and bisection
(dentist.cpp:195-202), the fixed group labels (dentist.cpp:204-209), the
zero-initialised per-marker state (dentist.cpp:211-214), then `nIter` rounds.
`fullIdx` is initialised to the permutation values themselves
(dentist.cpp:196). -/
def dentist (O : Oracles) (LDmat : ℕ → ℕ → ℚ) (markerSize nSample : ℕ) (zScore : ℕ → ℚ)
    (pValueThreshold propSVD : ℚ) (gcControl : Bool) (nIter : ℕ)
    (groupingPvalue_thresh : ℚ) (seed : ℤ) (fuel : ℕ) :
    Except DError (DState × List RoundInfo) :=
  match generateSetOfNumbers (O.stream seed) markerSize fuel with
  | none => .error .rngFuelExhausted
  | some randOrder =>
    let pr := partitionIdx randOrder (List.range markerSize) (markerSize / 2)
    let grouping := groupingGWASOf O zScore groupingPvalue_thresh
    let st0 : DState :=
      ⟨fun _ => 0, fun _ => 0, fun _ => 0, fun _ => 0, randOrder, pr.1, pr.2⟩
    dentistLoop O LDmat nSample zScore pValueThreshold propSVD gcControl grouping fuel 0 nIter st0

/-!  Concrete instances used by witnesses and counterexamples. -/

/-- Eigendecomposition oracle returning the identity basis with all
eigenvalues 1 (the exact `eig_sym` output for an identity submatrix). -/
def eigIdOracle : EigOracle := fun _ _ => ⟨fun _ => 1, fun i j => if i = j then 1 else 0⟩

/-- Identity LD matrix (scenario A of spec §8: uncorrelated markers). -/
def ldId : ℕ → ℕ → ℚ := fun i j => if i = j then 1 else 0

/-- Square-root oracle; in the concrete runs below the only evaluated argument
is `1`, where the value `1` is exact. -/
def sqrtOne : ℚ → ℚ := fun _ => 1

/-- Oracle bundle for the concrete runs: identity eigendecomposition, the
square root above, `minusLogPvalueChisq2 ≡ 0` and `-log10 ≡ 1` (so every
group label is 0), and the draw stream `k ↦ k` for every seed (pairwise
distinct draws, so no retry ever happens). -/
def oraclesEx : Oracles := ⟨eigIdOracle, sqrtOne, fun _ => 0, fun _ => 1, fun _ k => k⟩

/-- The all-zero `IterState` (the initialisation of dentist.cpp:211-213). -/
def zeroIter : IterState := ⟨fun _ => 0, fun _ => 0, fun _ => 0⟩

/-- A concrete completing `oneIteration` call: reference set `{0,1}`, target
set `{2}`, identity LD, all z-scores 0, `nSample = 2`, `propSVD = 1`. -/
def oneIterExRes : Except DError IterState :=
  oneIteration eigIdOracle sqrtOne ldId [0, 1] [2] (fun _ => 0) 2 1 zeroIter

/-- The state produced by `oneIterExRes` (zero fallback is never taken). -/
def oneIterExState : IterState :=
  match oneIterExRes with
  | .ok st => st
  | .error _ => zeroIter

/-- A concrete completing `dentist` run: 6 markers, identity LD, all z-scores
0, `propSVD = 1`, genomic control off, one round. -/
def dentist6 : Except DError (DState × List RoundInfo) :=
  dentist oraclesEx ldId 6 6 (fun _ => 0) (1 / 2) 1 false 1 (1 / 100) 0 10

/-- Fallback `DState` (never taken below). -/
def dstateDefault : DState := ⟨fun _ => 0, fun _ => 0, fun _ => 0, fun _ => 0, [], [], []⟩

/-- The result of `dentist6`. -/
def dentist6Res : DState × List RoundInfo :=
  match dentist6 with
  | .ok p => p
  | .error _ => (dstateDefault, [])

/-- The initial state of the `dentist6` run, spelled out. -/
def d6start : DState :=
  ⟨fun _ => 0, fun _ => 0, fun _ => 0, fun _ => 0, [0, 1, 2, 3, 4, 5], [4, 5], [0, 1, 2, 3]⟩

/-- The group labels of the `dentist6` run. -/
def d6grouping : ℕ → ℕ := groupingGWASOf oraclesEx (fun _ => 0) (1 / 100)

/-- The loop of the `dentist6` run started from `d6start`. -/
def d6LoopRes : DState × List RoundInfo :=
  match dentistLoop oraclesEx ldId 6 (fun _ => 0) (1 / 2) 1 false d6grouping 10 0 1 d6start with
  | .ok p => p
  | .error _ => (d6start, [])

/-- Z-scores for the genomic-control run: 1 on markers 0,1,2 and 0 elsewhere. -/
def zScoreGC : ℕ → ℚ := fun i => if i ≤ 2 then 1 else 0

/-- A concrete completing `dentist` run with genomic control enabled:
5 markers, identity LD, `pValueThreshold = 9/10`, one round. -/
def dentistGC : Except DError (DState × List RoundInfo) :=
  dentist oraclesEx ldId 5 5 zScoreGC (9 / 10) 1 true 1 (1 / 100) 0 10

/-!  ## Theorems -/

theorem sorted_getD_le {l : List ℚ} (hs : l.Sorted (· ≤ ·)) {i j : ℕ}
    (hij : i ≤ j) (hj : j < l.length) : l.getD i 0 ≤ l.getD j 0 := by
  have hi : i < l.length := lt_of_le_of_lt hij hj
  rw [List.getD_eq_getElem l 0 hi, List.getD_eq_getElem l 0 hj]
  rcases Nat.lt_or_ge i j with h | h
  · exact List.Sorted.rel_get_of_lt hs h
  · have : i = j := le_antisymm hij h
    subst this
    exact le_refl _

/-- C10: for a non-empty value list and quantile `q ∈ (0,1]`, the position
`ceil(size·q) − 1` computed by `getQuantile` is within bounds, so the
`std::vector::at` access cannot fail; for the empty list, and for `q = 0`,
the computed position is negative (out of range of the unsigned index type),
and the access fails for every `q`. -/
theorem getQuantile_at_bounds :
    (∀ (dat : List ℚ) (q : ℚ), dat ≠ [] → 0 < q → q ≤ 1 → (getQuantile dat q).isSome = true) ∧
    (∀ q : ℚ, getQuantile ([] : List ℚ) q = none) ∧
    (∀ dat : List ℚ, getQuantile dat 0 = none) := by
  refine ⟨?_, ?_, ?_⟩
  · intro dat q hne hq hq1
    have hlen : 0 < dat.length := List.length_pos.mpr hne
    have h1 : (1 : ℤ) ≤ ⌈(dat.length : ℚ) * q⌉ := by
      have hpos : (0 : ℚ) < (dat.length : ℚ) * q :=
        mul_pos (by exact_mod_cast hlen) hq
      exact Int.ceil_pos.mpr hpos
    have h2 : ⌈(dat.length : ℚ) * q⌉ ≤ (dat.length : ℤ) := by
      rw [Int.ceil_le]
      push_cast
      exact mul_le_of_le_one_right (by positivity) hq1
    unfold getQuantile
    rw [if_pos (by constructor <;> omega)]
    rfl
  · intro q
    simp [getQuantile]
  · intro dat
    simp [getQuantile]

/-- Witness for C10 at a concrete input. -/
theorem getQuantile_at_bounds_witness :
    (getQuantile [3, 1, 2] (1 / 2)).isSome = true :=
  getQuantile_at_bounds.1 [3, 1, 2] (1 / 2) (by decide) (by norm_num) (by norm_num)

/-- C6: `getQuantile` sorts ascending and reads rank `ceil(size·q) − 1`;
hence on a non-empty list `getQuantile dat 1` is the maximum of `dat`,
`getQuantile` is monotone in the quantile over `(0,1]`, and `getQuantile2`
returns exactly `0` whenever fewer than 50 values carry group label 1. -/
theorem getQuantile_max_mono_group :
    (∀ dat : List ℚ, dat ≠ [] →
      ∃ m, getQuantile dat 1 = some m ∧ m ∈ dat ∧ ∀ x ∈ dat, x ≤ m) ∧
    (∀ (dat : List ℚ) (q q2 : ℚ), dat ≠ [] → 0 < q → q ≤ q2 → q2 ≤ 1 →
      ∃ a b, getQuantile dat q = some a ∧ getQuantile dat q2 = some b ∧ a ≤ b) ∧
    (∀ (dat : List ℚ) (grouping : List ℕ) (q : ℚ),
      ((List.range dat.length).filter (fun i => grouping.getD i 0 = 1)).length < 50 →
      getQuantile2 dat grouping q = some 0) := by
  refine ⟨?_, ?_, ?_⟩
  · intro dat hne
    have hlen : 0 < dat.length := List.length_pos.mpr hne
    have hsort : (List.insertionSort (· ≤ ·) dat).Sorted (· ≤ ·) :=
      List.sorted_insertionSort (· ≤ ·) dat
    have hperm : (List.insertionSort (· ≤ ·) dat).Perm dat :=
      List.perm_insertionSort (· ≤ ·) dat
    have hslen : (List.insertionSort (· ≤ ·) dat).length = dat.length :=
      List.length_insertionSort _ dat
    refine ⟨(List.insertionSort (· ≤ ·) dat).getD (dat.length - 1) 0, ?_, ?_, ?_⟩
    · unfold getQuantile
      rw [mul_one, Int.ceil_natCast]
      rw [if_pos (by constructor <;> omega)]
      congr 1
      congr 1
      omega
    · have hb : dat.length - 1 < (List.insertionSort (· ≤ ·) dat).length := by omega
      rw [List.getD_eq_getElem _ 0 hb]
      exact hperm.subset (List.getElem_mem hb)
    · intro x hx
      have hx2 : x ∈ List.insertionSort (· ≤ ·) dat := hperm.mem_iff.mpr hx
      obtain ⟨i, hi⟩ := List.mem_iff_get.mp hx2
      have hib : (i : ℕ) < (List.insertionSort (· ≤ ·) dat).length := i.isLt
      have : x = (List.insertionSort (· ≤ ·) dat).getD i 0 := by
        rw [List.getD_eq_getElem _ 0 hib, ← hi]
        simp
      rw [this]
      exact sorted_getD_le hsort (by omega) (by omega)
  · intro dat q q2 hne hq hqq hq1
    have hlen : 0 < dat.length := List.length_pos.mpr hne
    have hsort : (List.insertionSort (· ≤ ·) dat).Sorted (· ≤ ·) :=
      List.sorted_insertionSort (· ≤ ·) dat
    have hslen : (List.insertionSort (· ≤ ·) dat).length = dat.length :=
      List.length_insertionSort _ dat
    have hq2pos : 0 < q2 := lt_of_lt_of_le hq hqq
    have h1 : (1 : ℤ) ≤ ⌈(dat.length : ℚ) * q⌉ :=
      Int.ceil_pos.mpr (mul_pos (by exact_mod_cast hlen) hq)
    have h1b : (1 : ℤ) ≤ ⌈(dat.length : ℚ) * q2⌉ :=
      Int.ceil_pos.mpr (mul_pos (by exact_mod_cast hlen) hq2pos)
    have h2 : ⌈(dat.length : ℚ) * q2⌉ ≤ (dat.length : ℤ) := by
      rw [Int.ceil_le]
      push_cast
      exact mul_le_of_le_one_right (by positivity) hq1
    have h2a : ⌈(dat.length : ℚ) * q⌉ ≤ ⌈(dat.length : ℚ) * q2⌉ :=
      Int.ceil_le_ceil (mul_le_mul_of_nonneg_left hqq (by positivity))
    refine ⟨(List.insertionSort (· ≤ ·) dat).getD (⌈(dat.length : ℚ) * q⌉ - 1).toNat 0,
      (List.insertionSort (· ≤ ·) dat).getD (⌈(dat.length : ℚ) * q2⌉ - 1).toNat 0, ?_, ?_, ?_⟩
    · unfold getQuantile
      rw [if_pos (by constructor <;> omega)]
    · unfold getQuantile
      rw [if_pos (by constructor <;> omega)]
    · exact sorted_getD_le hsort (by omega) (by omega)
  · intro dat grouping q hcount
    unfold getQuantile2
    rw [if_pos (by rw [List.length_map]; exact hcount)]

/-- Witness for C6 at a concrete input. -/
theorem getQuantile_max_mono_group_witness :
    (∃ m, getQuantile [3, 1, 2] 1 = some m ∧ m ∈ [(3 : ℚ), 1, 2] ∧
      ∀ x ∈ [(3 : ℚ), 1, 2], x ≤ m) ∧
    (∃ a b, getQuantile [3, 1, 2] (1 / 2) = some a ∧ getQuantile [3, 1, 2] 1 = some b ∧ a ≤ b) ∧
    getQuantile2 [3, 1, 2] [1, 0, 1] (1 / 2) = some 0 :=
  ⟨getQuantile_max_mono_group.1 [3, 1, 2] (by decide),
   getQuantile_max_mono_group.2.1 [3, 1, 2] (1 / 2) 1 (by decide) (by norm_num) (by norm_num)
     (by norm_num),
   getQuantile_max_mono_group.2.2 [3, 1, 2] [1, 0, 1] (1 / 2) (by decide)⟩

theorem countP_range_getD (v : List ℕ) (p : ℕ → Bool) :
    (List.range v.length).countP (fun i => p (v.getD i 0)) = v.countP p := by
  induction v with
  | nil => rfl
  | cons a t ih =>
    have h1 : (fun i => p ((a :: t).getD i 0)) ∘ Nat.succ = fun i => p (t.getD i 0) := rfl
    calc (List.range (a :: t).length).countP (fun i => p ((a :: t).getD i 0))
        = ((0 : ℕ) :: (List.range t.length).map Nat.succ).countP
            (fun i => p ((a :: t).getD i 0)) := by
          rw [← List.range_succ_eq_map]; rfl
      _ = ((List.range t.length).map Nat.succ).countP (fun i => p ((a :: t).getD i 0)) +
            if p ((a :: t).getD 0 0) = true then 1 else 0 := List.countP_cons _ _ _
      _ = (List.range t.length).countP (fun i => p (t.getD i 0)) +
            if p a = true then 1 else 0 := by rw [List.countP_map, h1]; rfl
      _ = t.countP p + if p a = true then 1 else 0 := by rw [ih]
      _ = (a :: t).countP p := (List.countP_cons _ _ _).symm

theorem countP_range_gt (h n : ℕ) :
    (List.range n).countP (fun v => decide (h < v)) = n - (h + 1) := by
  induction n with
  | zero => simp
  | succ n ih =>
    rw [List.range_succ, List.countP_append, ih]
    have hone : List.countP (fun v => decide (h < v)) [n] = if h < n then 1 else 0 := by
      by_cases hc : h < n <;> simp [List.countP_cons, hc]
    rw [hone]
    by_cases hc : h < n <;> simp [hc] <;> omega

/-- C1 (amended): each bisection produces an exact partition of the list it
walks (disjoint halves whose concatenation is a permutation of it, sizes
adding up); and for the initial bisection of `dentist` (dentist.cpp:199-202),
where the walked list is `0,…,n−1` and the rank list is a permutation of
`0,…,n−1`, the reference half has exactly `n − n/2 − 1` elements and the
target half `n/2 + 1` — so the sizes differ by 2 when `n` is even and by 1
when `n` is odd, not by at most 1. -/
theorem partitionIdx_exact :
    (∀ (randOrder active : List ℕ) (half : ℕ),
      (∀ x ∈ (partitionIdx randOrder active half).1,
        x ∉ (partitionIdx randOrder active half).2) ∧
      ((partitionIdx randOrder active half).1 ++
        (partitionIdx randOrder active half).2).Perm active ∧
      (partitionIdx randOrder active half).1.length +
        (partitionIdx randOrder active half).2.length = active.length) ∧
    (∀ (randOrder : List ℕ) (n : ℕ), 1 ≤ n → randOrder.Perm (List.range n) →
      (partitionIdx randOrder (List.range n) (n / 2)).1.length = n - n / 2 - 1 ∧
      (partitionIdx randOrder (List.range n) (n / 2)).2.length = n / 2 + 1) := by
  have exact1 : ∀ (randOrder active : List ℕ) (half : ℕ),
      (∀ x ∈ (partitionIdx randOrder active half).1,
        x ∉ (partitionIdx randOrder active half).2) ∧
      ((partitionIdx randOrder active half).1 ++
        (partitionIdx randOrder active half).2).Perm active ∧
      (partitionIdx randOrder active half).1.length +
        (partitionIdx randOrder active half).2.length = active.length := by
    intro randOrder active half
    have hperm : ((partitionIdx randOrder active half).1 ++
        (partitionIdx randOrder active half).2).Perm active := by
      unfold partitionIdx
      have hcg : active.filter (fun i => ¬ half < randOrder.getD i 0) =
          active.filter (fun i => !(decide (half < randOrder.getD i 0))) :=
        List.filter_congr (fun x _ => decide_not)
      rw [hcg]
      exact List.filter_append_perm _ active
    refine ⟨?_, hperm, ?_⟩
    · intro x hx1 hx2
      unfold partitionIdx at hx1 hx2
      have h1 := (List.mem_filter.mp hx1).2
      have h2 := (List.mem_filter.mp hx2).2
      simp only [decide_eq_true_eq] at h1 h2
      exact h2 h1
    · have := hperm.length_eq
      rwa [List.length_append] at this
  refine ⟨exact1, ?_⟩
  intro randOrder n hn hperm
  have hlen : randOrder.length = n := hperm.length_eq.trans (List.length_range n)
  have hcount1 : (partitionIdx randOrder (List.range n) (n / 2)).1.length = n - (n / 2 + 1) := by
    have hg := countP_range_getD randOrder (fun v => decide (n / 2 < v))
    rw [hlen] at hg
    show (List.filter (fun i => decide (n / 2 < randOrder.getD i 0)) (List.range n)).length = _
    calc (List.filter (fun i => decide (n / 2 < randOrder.getD i 0)) (List.range n)).length
        = (List.range n).countP (fun i => decide (n / 2 < randOrder.getD i 0)) :=
          (List.countP_eq_length_filter _ _).symm
      _ = randOrder.countP (fun v => decide (n / 2 < v)) := hg
      _ = (List.range n).countP (fun v => decide (n / 2 < v)) := hperm.countP_eq _
      _ = n - (n / 2 + 1) := countP_range_gt (n / 2) n
  have hsum := (exact1 randOrder (List.range n) (n / 2)).2.2
  rw [List.length_range] at hsum
  have hhalf : n / 2 + 1 ≤ n := by omega
  constructor
  · omega
  · omega

/-- Witness for C1's amended size formula at a concrete input. -/
theorem partitionIdx_exact_witness :
    (partitionIdx [0, 1, 2, 3, 4] (List.range 5) (5 / 2)).1.length = 5 - 5 / 2 - 1 ∧
    (partitionIdx [0, 1, 2, 3, 4] (List.range 5) (5 / 2)).2.length = 5 / 2 + 1 :=
  partitionIdx_exact.2 [0, 1, 2, 3, 4] 5 (by decide) (by decide)

theorem drawUnique_mono (stream : ℕ → ℕ) (numbers : List ℕ) :
    ∀ (fuel pos : ℕ) (r : ℕ × ℕ), drawUnique stream numbers pos fuel = some r →
      ∀ fuel2, fuel ≤ fuel2 → drawUnique stream numbers pos fuel2 = some r := by
  intro fuel
  induction fuel with
  | zero =>
    intro pos r h
    exact absurd h (by simp [drawUnique])
  | succ fuel ih =>
    intro pos r h fuel2 hle
    obtain ⟨f2, rfl⟩ : ∃ f2, fuel2 = f2 + 1 := ⟨fuel2 - 1, by omega⟩
    rw [drawUnique] at h ⊢
    by_cases hmem : stream pos ∈ numbers
    · rw [if_pos hmem] at h ⊢
      exact ih _ _ h _ (by omega)
    · rw [if_neg hmem] at h ⊢
      exact h

theorem drawUnique_some (stream : ℕ → ℕ) (numbers : List ℕ) :
    ∀ (fuel pos t p1 : ℕ), drawUnique stream numbers pos fuel = some (t, p1) →
      t ∉ numbers ∧ ∃ k, t = stream k := by
  intro fuel
  induction fuel with
  | zero =>
    intro pos t p1 h
    exact absurd h (by simp [drawUnique])
  | succ fuel ih =>
    intro pos t p1 h
    rw [drawUnique] at h
    by_cases hmem : stream pos ∈ numbers
    · rw [if_pos hmem] at h
      exact ih _ _ _ h
    · rw [if_neg hmem] at h
      have h2 := Option.some.inj h
      rw [Prod.mk.injEq] at h2
      obtain ⟨rfl, rfl⟩ := h2
      exact ⟨hmem, pos, rfl⟩

theorem fillNumbers_mono (stream : ℕ → ℕ) (fuel : ℕ) :
    ∀ (rem : ℕ) (acc : List ℕ) (pos : ℕ) (out : List ℕ),
      fillNumbers stream fuel acc pos rem = some out →
      ∀ fuel2, fuel ≤ fuel2 → fillNumbers stream fuel2 acc pos rem = some out := by
  intro rem
  induction rem with
  | zero =>
    intro acc pos out h fuel2 _
    rw [fillNumbers] at h ⊢
    exact h
  | succ rem ih =>
    intro acc pos out h fuel2 hle
    rw [fillNumbers] at h ⊢
    cases hd : drawUnique stream acc pos fuel with
    | none => rw [hd] at h; exact absurd h (by simp)
    | some r =>
      obtain ⟨t, p1⟩ := r
      rw [hd] at h
      rw [drawUnique_mono stream acc fuel pos (t, p1) hd fuel2 hle]
      exact ih _ _ _ h fuel2 hle

theorem fillNumbers_length (stream : ℕ → ℕ) (fuel : ℕ) :
    ∀ (rem : ℕ) (acc : List ℕ) (pos : ℕ) (out : List ℕ),
      fillNumbers stream fuel acc pos rem = some out → out.length = acc.length + rem := by
  intro rem
  induction rem with
  | zero =>
    intro acc pos out h
    rw [fillNumbers] at h
    rw [← Option.some.inj h]
    omega
  | succ rem ih =>
    intro acc pos out h
    rw [fillNumbers] at h
    cases hd : drawUnique stream acc pos fuel with
    | none => rw [hd] at h; exact absurd h (by simp)
    | some r =>
      obtain ⟨t, p1⟩ := r
      rw [hd] at h
      have := ih _ _ _ h
      rw [List.length_append] at this
      simp at this
      omega

theorem sort_indexes_perm (v : List ℕ) : (sort_indexes v).Perm (List.range v.length) :=
  List.perm_insertionSort _ _

theorem generateSetOfNumbers_perm_aux (stream : ℕ → ℕ) (SIZE fuel : ℕ) (out : List ℕ)
    (h : generateSetOfNumbers stream SIZE fuel = some out) : out.Perm (List.range SIZE) := by
  rw [generateSetOfNumbers] at h
  by_cases h0 : SIZE = 0
  · rw [if_pos h0] at h
    cases Option.some.inj h
    subst h0
    rfl
  · rw [if_neg h0] at h
    cases hn : fillNumbers stream fuel [stream 0] 1 (SIZE - 1) with
    | none => rw [hn] at h; exact absurd h (by simp)
    | some numbers =>
      rw [hn] at h
      cases Option.some.inj h
      have hlen := fillNumbers_length stream fuel (SIZE - 1) [stream 0] 1 numbers hn
      have hlen2 : numbers.length = SIZE := by
        simp at hlen
        omega
      rw [← hlen2]
      exact sort_indexes_perm numbers

/-- C4: whenever `generateSetOfNumbers` returns (the retry loop terminates
within the fuel bound), the result is a permutation of `{0,…,SIZE−1}`, and the
result does not depend on the fuel bound: any larger bound — in particular the
idealised unbounded loop of the source — returns the identical permutation.
Reproducibility for a fixed seed is inherent: the model consumes the
deterministic `mt19937` draw sequence of the seed. -/
theorem generateSetOfNumbers_perm_det :
    ∀ (stream : ℕ → ℕ) (SIZE fuel : ℕ) (out : List ℕ),
      generateSetOfNumbers stream SIZE fuel = some out →
      out.Perm (List.range SIZE) ∧
      ∀ fuel2, fuel ≤ fuel2 → generateSetOfNumbers stream SIZE fuel2 = some out := by
  intro stream SIZE fuel out h
  refine ⟨generateSetOfNumbers_perm_aux stream SIZE fuel out h, ?_⟩
  intro fuel2 hle
  rw [generateSetOfNumbers] at h ⊢
  by_cases h0 : SIZE = 0
  · rw [if_pos h0] at h ⊢
    exact h
  · rw [if_neg h0] at h ⊢
    cases hn : fillNumbers stream fuel [stream 0] 1 (SIZE - 1) with
    | none => rw [hn] at h; exact absurd h (by simp)
    | some numbers =>
      rw [hn] at h
      rw [fillNumbers_mono stream fuel (SIZE - 1) [stream 0] 1 numbers hn fuel2 hle]
      exact h

/-- Witness for C4 at a concrete input. -/
theorem generateSetOfNumbers_perm_det_witness :
    ([0, 1, 2] : List ℕ).Perm (List.range 3) ∧
    generateSetOfNumbers (fun k => k) 3 2 = some [0, 1, 2] := by
  have h : generateSetOfNumbers (fun k => k) 3 1 = some [0, 1, 2] := by decide
  have h2 := generateSetOfNumbers_perm_det (fun k => k) 3 1 [0, 1, 2] h
  exact ⟨h2.1, h2.2 2 (by omega)⟩

theorem nodup_bounded_length {l : List ℕ} (hd : l.Nodup) (hb : ∀ x ∈ l, x ≤ intMax) :
    l.length ≤ intMax + 1 := by
  have hcard : l.toFinset.card = l.length := List.toFinset_card_of_nodup hd
  have hsub : l.toFinset ⊆ Finset.range (intMax + 1) := by
    intro x hx
    rw [Finset.mem_range]
    have := hb x (List.mem_toFinset.mp hx)
    omega
  have hle := Finset.card_le_card hsub
  rw [hcard, Finset.card_range] at hle
  exact hle

theorem fillNumbers_stuck (stream : ℕ → ℕ) (hs : ∀ k, stream k ≤ intMax) (fuel : ℕ) :
    ∀ (rem : ℕ) (acc : List ℕ) (pos : ℕ), acc.Nodup → (∀ x ∈ acc, x ≤ intMax) →
      acc.length + rem = intMax + 2 → fillNumbers stream fuel acc pos rem = none := by
  intro rem
  induction rem with
  | zero =>
    intro acc pos hnd hb hlen
    exact absurd (nodup_bounded_length hnd hb) (by omega)
  | succ rem ih =>
    intro acc pos hnd hb hlen
    rw [fillNumbers]
    cases hd : drawUnique stream acc pos fuel with
    | none => rfl
    | some r =>
      obtain ⟨t, p1⟩ := r
      obtain ⟨hnotmem, k, hk⟩ := drawUnique_some stream acc fuel pos t p1 hd
      show fillNumbers stream fuel (acc ++ [t]) p1 rem = none
      apply ih
      · rw [List.nodup_append]
        refine ⟨hnd, List.nodup_singleton t, ?_⟩
        intro a ha ha2
        rw [List.mem_singleton] at ha2
        subst ha2
        exact hnotmem ha
      · intro x hx
        rcases List.mem_append.mp hx with hx | hx
        · exact hb x hx
        · rw [List.mem_singleton] at hx
          subst hx
          rw [hk]
          exact hs k
      · rw [List.length_append]
        simp
        omega

/-- C9 (refuting the guard): `generateSetOfNumbers` performs no configuration
check; when `SIZE` exceeds the size `intMax + 1` of the uniform draw space,
the duplicate-retry loop can never find a fresh draw once all values are
taken, so the call exhausts every fuel bound — the source's unbounded loop
runs forever instead of rejecting the request. -/
theorem generateSetOfNumbers_drawspace_stuck :
    ∀ stream : ℕ → ℕ, (∀ k, stream k ≤ intMax) →
      ∀ fuel, generateSetOfNumbers stream (intMax + 2) fuel = none := by
  intro stream hs fuel
  rw [generateSetOfNumbers]
  rw [if_neg (by omega : ¬ intMax + 2 = 0)]
  rw [fillNumbers_stuck stream hs fuel (intMax + 2 - 1) [stream 0] 1
    (List.nodup_singleton _)
    (by intro x hx; rw [List.mem_singleton] at hx; subst hx; exact hs 0)
    (by simp; omega)]

/-- Witness for C9 at a concrete stream and fuel. -/
theorem generateSetOfNumbers_drawspace_stuck_witness :
    generateSetOfNumbers (fun _ => 0) (intMax + 2) 5 = none :=
  generateSetOfNumbers_drawspace_stuck (fun _ => 0) (fun _ => Nat.zero_le _) 5

theorem updFn_ne {α : Type} (f : ℕ → α) (jj j : ℕ) (v : α) (h : jj ≠ j) :
    updFn f jj v j = f j := by
  unfold updFn
  rw [if_neg (fun he => h he.symm)]

theorem scatterLoop_ne_rank (sqrtO : ℚ → ℚ) (LDmat : ℕ → ℕ → ℚ) (idx2 : List ℕ)
    (zScore zimp rsqe : ℕ → ℚ) :
    ∀ (positions : List ℕ) (st : IterState),
      scatterLoop sqrtO LDmat idx2 zScore zimp rsqe positions st ≠
        .error DError.rankDeficiency := by
  intro positions
  induction positions with
  | nil =>
    intro st h
    exact absurd h (by simp [scatterLoop])
  | cons i rest ih =>
    intro st
    simp only [scatterLoop]
    split
    · intro h
      simp at h
    · exact ih _

/-- C2: in `oneIteration` the truncation rank is
`K = ⌊min(|idx|, nSample) · propSVD⌋` capped at the effective rank
`n − #{eigenvalues < 10⁻⁴}`, the run aborts with `RankDeficiency` exactly when
the capped rank is ≤ 1, and whenever `oneIteration` completes normally the
capped rank is ≥ 2. -/
theorem oneIteration_rank_check :
    ∀ (eig : EigOracle) (sqrtO : ℚ → ℚ) (LDmat : ℕ → ℕ → ℚ) (idx idx2 : List ℕ)
      (zScore : ℕ → ℚ) (nSample : ℕ) (propSVD : ℚ) (st : IterState),
      (oneIteration eig sqrtO LDmat idx idx2 zScore nSample propSVD st =
          .error DError.rankDeficiency ↔
        oneIterKcap eig LDmat idx nSample propSVD ≤ 1) ∧
      (∀ st2, oneIteration eig sqrtO LDmat idx idx2 zScore nSample propSVD st = .ok st2 →
        2 ≤ oneIterKcap eig LDmat idx nSample propSVD) := by
  intro eig sqrtO LDmat idx idx2 zScore nSample propSVD st
  by_cases hk : oneIterKcap eig LDmat idx nSample propSVD ≤ 1
  · refine ⟨⟨fun _ => hk, fun _ => by rw [oneIteration, if_pos hk]⟩, ?_⟩
    intro st2 h
    rw [oneIteration, if_pos hk] at h
    exact absurd h (by simp)
  · refine ⟨⟨?_, fun h => absurd h hk⟩, fun st2 _ => by omega⟩
    intro h
    rw [oneIteration, if_neg hk] at h
    exact absurd h (scatterLoop_ne_rank _ _ _ _ _ _ _ _)

/-- Witness for C2 at a concrete completing call. -/
theorem oneIteration_rank_check_witness :
    2 ≤ oneIterKcap eigIdOracle ldId [0, 1] 2 1 :=
  (oneIteration_rank_check eigIdOracle sqrtOne ldId [0, 1] [2] (fun _ => 0) 2 1 zeroIter).2
    oneIterExState (by with_unfolding_all rfl)

theorem kept_eigval_pos (eig : EigOracle) (LDmat : ℕ → ℕ → ℚ) (idx : List ℕ)
    (nSample : ℕ) (propSVD : ℚ)
    (hsorted : ∀ p q, p ≤ q → q < idx.length →
      (oneIterEig eig LDmat idx).eigval p ≤ (oneIterEig eig LDmat idx).eigval q)
    (m : ℕ) (hm : m < oneIterKcap eig LDmat idx nSample propSVD) :
    1 / 10000 ≤ (oneIterEig eig LDmat idx).eigval (idx.length - m - 1) := by
  have hkn : oneIterKcap eig LDmat idx nSample propSVD ≤
      idx.length - oneIterNZeros eig LDmat idx := min_le_right _ _
  have hzc : oneIterNZeros eig LDmat idx =
      (List.range idx.length).countP
        (fun p => decide ((oneIterEig eig LDmat idx).eigval p < 1 / 10000)) :=
    (List.countP_eq_length_filter _ _).symm
  by_contra hlt
  push_neg at hlt
  have hj : idx.length - m - 1 < idx.length := by omega
  have hcount : idx.length - m ≤ (List.range idx.length).countP
      (fun p => decide ((oneIterEig eig LDmat idx).eigval p < 1 / 10000)) := by
    have hsub : List.Sublist (List.range (idx.length - m)) (List.range idx.length) :=
      List.range_sublist.mpr (by omega)
    have hall : (List.range (idx.length - m)).countP
        (fun p => decide ((oneIterEig eig LDmat idx).eigval p < 1 / 10000)) =
        (List.range (idx.length - m)).length := by
      rw [List.countP_eq_length]
      intro a ha
      rw [List.mem_range] at ha
      have hle : (oneIterEig eig LDmat idx).eigval a ≤
          (oneIterEig eig LDmat idx).eigval (idx.length - m - 1) :=
        hsorted a (idx.length - m - 1) (by omega) hj
      exact decide_eq_true (lt_of_le_of_lt hle hlt)
    calc idx.length - m
        = (List.range (idx.length - m)).length := (List.length_range _).symm
      _ = (List.range (idx.length - m)).countP
            (fun p => decide ((oneIterEig eig LDmat idx).eigval p < 1 / 10000)) := hall.symm
      _ ≤ _ := hsub.countP_le _
  rw [← hzc] at hcount
  omega

theorem oneIterRsq_nonneg (eig : EigOracle) (LDmat : ℕ → ℕ → ℚ) (idx idx2 : List ℕ)
    (nSample : ℕ) (propSVD : ℚ)
    (hsorted : ∀ p q, p ≤ q → q < idx.length →
      (oneIterEig eig LDmat idx).eigval p ≤ (oneIterEig eig LDmat idx).eigval q)
    (i : ℕ) : 0 ≤ oneIterRsq eig LDmat idx idx2 nSample propSVD i := by
  unfold oneIterRsq sumR
  apply List.sum_nonneg
  intro x hx
  rw [List.mem_map] at hx
  obtain ⟨m, hm, rfl⟩ := hx
  rw [List.mem_range] at hm
  show (0 : ℚ) ≤ oneIterBeta eig LDmat idx idx2 i m *
    ((List.range idx.length).map
      (fun k => oneIterUi eig LDmat idx k m * oneIterLD_it LDmat idx idx2 i k)).sum
  have hcomm : ((List.range idx.length).map
      (fun k => oneIterUi eig LDmat idx k m * oneIterLD_it LDmat idx idx2 i k)).sum =
      ((List.range idx.length).map
        (fun k => oneIterLD_it LDmat idx idx2 i k * oneIterUi eig LDmat idx k m)).sum := by
    congr 1
    exact List.map_congr_left (fun k _ => mul_comm _ _)
  rw [hcomm]
  have hb : oneIterBeta eig LDmat idx idx2 i m *
      ((List.range idx.length).map
        (fun k => oneIterLD_it LDmat idx idx2 i k * oneIterUi eig LDmat idx k m)).sum =
      (((List.range idx.length).map
        (fun k => oneIterLD_it LDmat idx idx2 i k * oneIterUi eig LDmat idx k m)).sum) ^ 2 *
        oneIterWi eig LDmat idx m := by
    unfold oneIterBeta sumR
    ring
  rw [hb]
  apply mul_nonneg (sq_nonneg _)
  unfold oneIterWi
  have hev := kept_eigval_pos eig LDmat idx nSample propSVD hsorted m hm
  have : (0 : ℚ) ≤ (oneIterEig eig LDmat idx).eigval (idx.length - m - 1) :=
    le_trans (by norm_num) hev
  exact one_div_nonneg.mpr this

theorem scatterLoop_frame (sqrtO : ℚ → ℚ) (LDmat : ℕ → ℕ → ℚ) (idx2 : List ℕ)
    (zScore zimp rsqe : ℕ → ℚ) :
    ∀ (positions : List ℕ) (st st2 : IterState),
      scatterLoop sqrtO LDmat idx2 zScore zimp rsqe positions st = .ok st2 →
      ∀ j, (∀ i ∈ positions, idx2.getD i 0 ≠ j) →
        st2.imputedZ j = st.imputedZ j ∧ st2.rsqList j = st.rsqList j ∧
          st2.zScore_e j = st.zScore_e j := by
  intro positions
  induction positions with
  | nil =>
    intro st st2 h j _
    have := Except.ok.inj h
    subst this
    exact ⟨rfl, rfl, rfl⟩
  | cons i rest ih =>
    intro st st2 h j hj
    simp only [scatterLoop] at h
    split at h
    · exact absurd h (by simp)
    · have hji : idx2.getD i 0 ≠ j := hj i (List.mem_cons_self i rest)
      obtain ⟨h1, h2, h3⟩ := ih _ _ h j (fun i2 hi2 => hj i2 (List.mem_cons_of_mem _ hi2))
      refine ⟨?_, ?_, ?_⟩
      · rw [h1]; exact updFn_ne _ _ _ _ hji
      · rw [h2]; exact updFn_ne _ _ _ _ hji
      · rw [h3]; exact updFn_ne _ _ _ _ hji

theorem scatterLoop_ok_lt (sqrtO : ℚ → ℚ) (LDmat : ℕ → ℕ → ℚ) (idx2 : List ℕ)
    (zScore zimp rsqe : ℕ → ℚ) :
    ∀ (positions : List ℕ) (st st2 : IterState),
      scatterLoop sqrtO LDmat idx2 zScore zimp rsqe positions st = .ok st2 →
      ∀ i ∈ positions, rsqe i < 1 := by
  intro positions
  induction positions with
  | nil =>
    intro st st2 _ i hi
    exact absurd hi (List.not_mem_nil i)
  | cons i rest ih =>
    intro st st2 h i2 hi2
    simp only [scatterLoop] at h
    split at h
    · exact absurd h (by simp)
    · rename_i hc
      rcases List.mem_cons.mp hi2 with rfl | hmem
      · exact lt_of_not_le hc
      · exact ih _ _ h i2 hmem

theorem scatterLoop_written (sqrtO : ℚ → ℚ) (LDmat : ℕ → ℕ → ℚ) (idx2 : List ℕ)
    (zScore zimp rsqe : ℕ → ℚ) :
    ∀ (positions : List ℕ) (st st2 : IterState),
      scatterLoop sqrtO LDmat idx2 zScore zimp rsqe positions st = .ok st2 →
      ∀ j, (∃ i ∈ positions, idx2.getD i 0 = j) →
        ∃ i ∈ positions, st2.rsqList j = rsqe i := by
  intro positions
  induction positions with
  | nil =>
    intro st st2 _ j hex
    obtain ⟨i, hi, _⟩ := hex
    exact absurd hi (List.not_mem_nil i)
  | cons i rest ih =>
    intro st st2 h j hex
    simp only [scatterLoop] at h
    split at h
    · exact absurd h (by simp)
    · by_cases hrest : ∃ i2 ∈ rest, idx2.getD i2 0 = j
      · obtain ⟨i3, hi3, hval⟩ := ih _ _ h j hrest
        exact ⟨i3, List.mem_cons_of_mem _ hi3, hval⟩
      · obtain ⟨i0, hi0, he0⟩ := hex
        have hieq : idx2.getD i 0 = j := by
          rcases List.mem_cons.mp hi0 with rfl | hmem
          · exact he0
          · exact absurd ⟨i0, hmem, he0⟩ hrest
        push_neg at hrest
        have hfr := scatterLoop_frame sqrtO LDmat idx2 zScore zimp rsqe rest _ _ h j hrest
        refine ⟨i, List.mem_cons_self i rest, ?_⟩
        rw [hfr.2.1]
        show updFn st.rsqList (idx2.getD i 0) (rsqe i) j = rsqe i
        unfold updFn
        rw [if_pos hieq.symm]

theorem scatterLoop_err (sqrtO : ℚ → ℚ) (LDmat : ℕ → ℕ → ℚ) (idx2 : List ℕ)
    (zScore zimp rsqe : ℕ → ℚ) :
    ∀ (positions : List ℕ) (st : IterState),
      (∃ i ∈ positions, 1 ≤ rsqe i) →
      ∃ r, 1 ≤ r ∧
        scatterLoop sqrtO LDmat idx2 zScore zimp rsqe positions st =
          .error (DError.degenerateResidual r) := by
  intro positions
  induction positions with
  | nil =>
    intro st hex
    obtain ⟨i, hi, _⟩ := hex
    exact absurd hi (List.not_mem_nil i)
  | cons i rest ih =>
    intro st hex
    simp only [scatterLoop]
    by_cases hc : 1 ≤ rsqe i
    · rw [if_pos hc]
      exact ⟨rsqe i, hc, rfl⟩
    · rw [if_neg hc]
      apply ih
      obtain ⟨i2, hi2, hge⟩ := hex
      rcases List.mem_cons.mp hi2 with rfl | hmem
      · exact absurd hge hc
      · exact ⟨i2, hmem, hge⟩

theorem getD_mem_of_lt {l : List ℕ} {i : ℕ} (h : i < l.length) : l.getD i 0 ∈ l := by
  rw [List.getD_eq_getElem l 0 h]
  exact List.getElem_mem h

/-- C3: under the ascending eigenvalue order guaranteed by `arma::eig_sym`,
every R² that a completing `oneIteration` stores for a target marker lies in
`[0, 1)`; and whenever some target position's computed R² reaches 1 (and the
rank check passes), `oneIteration` aborts with `DegenerateResidual` instead of
dividing by the non-positive residual variance. -/
theorem oneIteration_rsq_bounds :
    ∀ (eig : EigOracle) (sqrtO : ℚ → ℚ) (LDmat : ℕ → ℕ → ℚ) (idx idx2 : List ℕ)
      (zScore : ℕ → ℚ) (nSample : ℕ) (propSVD : ℚ) (st : IterState),
      (∀ p q, p ≤ q → q < idx.length →
        (oneIterEig eig LDmat idx).eigval p ≤ (oneIterEig eig LDmat idx).eigval q) →
      (∀ st2, oneIteration eig sqrtO LDmat idx idx2 zScore nSample propSVD st = .ok st2 →
        ∀ j ∈ idx2, 0 ≤ st2.rsqList j ∧ st2.rsqList j < 1) ∧
      (¬ oneIterKcap eig LDmat idx nSample propSVD ≤ 1 →
        (∃ i, i < idx2.length ∧ 1 ≤ oneIterRsq eig LDmat idx idx2 nSample propSVD i) →
        ∃ r, 1 ≤ r ∧
          oneIteration eig sqrtO LDmat idx idx2 zScore nSample propSVD st =
            .error (DError.degenerateResidual r)) := by
  intro eig sqrtO LDmat idx idx2 zScore nSample propSVD st hsorted
  constructor
  · intro st2 h j hj
    rw [oneIteration] at h
    by_cases hk : oneIterKcap eig LDmat idx nSample propSVD ≤ 1
    · rw [if_pos hk] at h
      exact absurd h (by simp)
    · rw [if_neg hk] at h
      obtain ⟨i, hilt, hig⟩ := List.mem_iff_getElem.mp hj
      have hex : ∃ i ∈ List.range idx2.length, idx2.getD i 0 = j := by
        refine ⟨i, List.mem_range.mpr hilt, ?_⟩
        rw [List.getD_eq_getElem idx2 0 hilt]
        exact hig
      obtain ⟨i2, hi2, hval⟩ :=
        scatterLoop_written sqrtO LDmat idx2 zScore _ _ _ _ _ h j hex
      have hlt := scatterLoop_ok_lt sqrtO LDmat idx2 zScore _ _ _ _ _ h i2 hi2
      rw [hval]
      exact ⟨oneIterRsq_nonneg eig LDmat idx idx2 nSample propSVD hsorted i2, hlt⟩
  · intro hk hex
    rw [oneIteration, if_neg hk]
    apply scatterLoop_err
    obtain ⟨i, hilt, hge⟩ := hex
    exact ⟨i, List.mem_range.mpr hilt, hge⟩

/-- Witness for C3 at a concrete completing call. -/
theorem oneIteration_rsq_bounds_witness :
    0 ≤ oneIterExState.rsqList 2 ∧ oneIterExState.rsqList 2 < 1 := by
  have hs : ∀ p q : ℕ, p ≤ q → q < ([0, 1] : List ℕ).length →
      (oneIterEig eigIdOracle ldId [0, 1]).eigval p ≤
        (oneIterEig eigIdOracle ldId [0, 1]).eigval q := by
    intro p q _ _
    exact le_refl 1
  exact (oneIteration_rsq_bounds eigIdOracle sqrtOne ldId [0, 1] [2] (fun _ => 0) 2 1
    zeroIter hs).1 oneIterExState (by with_unfolding_all rfl) 2 (by decide)

/-- C7 (the intended semantics, on the spec-modelled complement): the grouped
quantile taken over the elementwise complement of the group labels is exactly
the grouped quantile over the markers whose original label is 0.  The source
itself writes `!grouping_tmp` on a `std::vector<uint>` (dentist.cpp:234),
which is ill-formed C++ and computes nothing. -/
theorem getQuantile2_notGrouping :
    ∀ (dat : List ℚ) (grouping : List ℕ) (q : ℚ), dat.length ≤ grouping.length →
      getQuantile2 dat (notGrouping grouping) q =
        (if (((List.range dat.length).filter (fun i => grouping.getD i 0 = 0)).map
            (fun i => dat.getD i 0)).length < 50 then some 0
         else getQuantile
            (((List.range dat.length).filter (fun i => grouping.getD i 0 = 0)).map
              (fun i => dat.getD i 0)) q) := by
  intro dat grouping q hlen
  have hfil : (List.range dat.length).filter (fun i => (notGrouping grouping).getD i 0 = 1) =
      (List.range dat.length).filter (fun i => grouping.getD i 0 = 0) := by
    apply List.filter_congr
    intro x hx
    rw [List.mem_range] at hx
    have hxg : x < grouping.length := lt_of_lt_of_le hx hlen
    have hng : (notGrouping grouping).getD x 0 =
        if grouping.getD x 0 = 0 then 1 else 0 := by
      unfold notGrouping
      rw [List.getD_eq_getElem _ 0 (by rw [List.length_map]; exact hxg), List.getElem_map,
        List.getD_eq_getElem _ 0 hxg]
    rw [hng]
    by_cases hz : grouping.getD x 0 = 0
    · simp [hz]
    · simp [hz]
  simp only [getQuantile2]
  rw [hfil]

/-- Witness for C7's complement semantics at a concrete input. -/
theorem getQuantile2_notGrouping_witness :
    getQuantile2 [1, 2] (notGrouping [1, 0]) (1 / 2) = some 0 :=
  (getQuantile2_notGrouping [1, 2] [1, 0] (1 / 2) (by decide)).trans
    (by with_unfolding_all decide)

theorem oneIteration_frame_aux :
    ∀ (eig : EigOracle) (sqrtO : ℚ → ℚ) (LDmat : ℕ → ℕ → ℚ) (idx idx2 : List ℕ)
      (zScore : ℕ → ℚ) (nSample : ℕ) (propSVD : ℚ) (st st2 : IterState),
      oneIteration eig sqrtO LDmat idx idx2 zScore nSample propSVD st = .ok st2 →
      ∀ j, j ∉ idx2 →
        st2.imputedZ j = st.imputedZ j ∧ st2.rsqList j = st.rsqList j ∧
          st2.zScore_e j = st.zScore_e j := by
  intro eig sqrtO LDmat idx idx2 zScore nSample propSVD st st2 h j hj
  rw [oneIteration] at h
  by_cases hk : oneIterKcap eig LDmat idx nSample propSVD ≤ 1
  · rw [if_pos hk] at h
    exact absurd h (by simp)
  · rw [if_neg hk] at h
    apply scatterLoop_frame _ _ _ _ _ _ _ _ _ h j
    intro i hi
    rw [List.mem_range] at hi
    intro he
    exact hj (he ▸ getD_mem_of_lt hi)

theorem dentistRound_frame (O : Oracles) (LDmat : ℕ → ℕ → ℚ) (nSample : ℕ) (zScore : ℕ → ℚ)
    (pValueThreshold propSVD : ℚ) (gcControl : Bool) (grouping : ℕ → ℕ) (fuel t : ℕ) :
    ∀ (st st1 : DState) (info : RoundInfo),
      dentistRound O LDmat nSample zScore pValueThreshold propSVD gcControl grouping fuel t st =
        .ok (st1, info) →
      info.idx2Used = st.idx2 ∧
      ∀ j, j ∉ st.idx2 → j ∉ info.idx2QCed →
        st1.imputedZ j = st.imputedZ j ∧ st1.rsq j = st.rsq j ∧
          st1.zScore_e j = st.zScore_e j := by
  intro st st1 info h
  simp only [dentistRound] at h
  split at h
  · exact absurd h (by simp)
  · rename_i s1 hs1
    split at h
    · exact absurd h (by simp)
    · rename_i th hth
      split at h
      · exact absurd h (by simp)
      · rename_i th1 hth1
        split at h
        · exact absurd h (by simp)
        · rename_i th0 hth0
          split at h
          · exact absurd h (by simp)
          · rename_i s2 hs2
            split at h
            · exact absurd h (by simp)
            · rename_i randOrder hro
              injection h with hpair
              injection hpair with hst hinfo
              subst hst
              subst hinfo
              refine ⟨rfl, ?_⟩
              intro j hj1 hj2
              obtain ⟨hA, hB, hC⟩ := oneIteration_frame_aux _ _ _ _ _ _ _ _ _ _ hs1 j hj1
              obtain ⟨hD, hE, hF⟩ := oneIteration_frame_aux _ _ _ _ _ _ _ _ _ _ hs2 j hj2
              exact ⟨hD.trans hA, hE.trans hB, hF.trans hC⟩

theorem dentistLoop_frame (O : Oracles) (LDmat : ℕ → ℕ → ℚ) (nSample : ℕ) (zScore : ℕ → ℚ)
    (pValueThreshold propSVD : ℚ) (gcControl : Bool) (grouping : ℕ → ℕ) (fuel : ℕ) :
    ∀ (rem t : ℕ) (st stF : DState) (infos : List RoundInfo),
      dentistLoop O LDmat nSample zScore pValueThreshold propSVD gcControl grouping fuel t rem
        st = .ok (stF, infos) →
      ∀ j, (∀ info ∈ infos, j ∉ info.idx2Used ∧ j ∉ info.idx2QCed) →
        stF.imputedZ j = st.imputedZ j ∧ stF.rsq j = st.rsq j ∧
          stF.zScore_e j = st.zScore_e j := by
  intro rem
  induction rem with
  | zero =>
    intro t st stF infos h j _
    rw [dentistLoop] at h
    injection h with hpair
    injection hpair with h1 h2
    subst h1
    exact ⟨rfl, rfl, rfl⟩
  | succ rem ih =>
    intro t st stF infos h j hj
    rw [dentistLoop] at h
    split at h
    · exact absurd h (by simp)
    · rename_i st1 info hr
      split at h
      · exact absurd h (by simp)
      · rename_i stF2 infos2 hl
        injection h with hpair
        injection hpair with h1 h2
        subst h1
        subst h2
        have hj1 := hj info (List.mem_cons_self _ _)
        have hrest : ∀ i2 ∈ infos2, j ∉ i2.idx2Used ∧ j ∉ i2.idx2QCed :=
          fun i2 hi2 => hj i2 (List.mem_cons_of_mem _ hi2)
        obtain ⟨hA, hB, hC⟩ := ih _ _ _ _ hl j hrest
        obtain ⟨hIU, hfr⟩ :=
          dentistRound_frame O LDmat nSample zScore pValueThreshold propSVD gcControl
            grouping fuel t st st1 info hr
        have hj2 : j ∉ st.idx2 := hIU ▸ hj1.1
        obtain ⟨hD, hE, hF⟩ := hfr j hj2 hj1.2
        exact ⟨hA.trans hD, hB.trans hE, hC.trans hF⟩

/-- C8: `oneIteration` writes `imputedZ`, `rsqList` and `zScore_e` only at
indices in its target set `idx2` and leaves every other index unchanged; and
in a completing `dentist` run, any marker that never belongs to a round's
target set (neither the full target set nor the QC'd one) keeps the initial
zero defaults for all three outputs. -/
theorem oneIteration_dentist_frame :
    (∀ (eig : EigOracle) (sqrtO : ℚ → ℚ) (LDmat : ℕ → ℕ → ℚ) (idx idx2 : List ℕ)
      (zScore : ℕ → ℚ) (nSample : ℕ) (propSVD : ℚ) (st st2 : IterState),
      oneIteration eig sqrtO LDmat idx idx2 zScore nSample propSVD st = .ok st2 →
      ∀ j, j ∉ idx2 →
        st2.imputedZ j = st.imputedZ j ∧ st2.rsqList j = st.rsqList j ∧
          st2.zScore_e j = st.zScore_e j) ∧
    (∀ (O : Oracles) (LDmat : ℕ → ℕ → ℚ) (markerSize nSample : ℕ) (zScore : ℕ → ℚ)
      (pValueThreshold propSVD : ℚ) (gcControl : Bool) (nIter : ℕ)
      (groupingPvalue_thresh : ℚ) (seed : ℤ) (fuel : ℕ) (fs : DState)
      (infos : List RoundInfo),
      dentist O LDmat markerSize nSample zScore pValueThreshold propSVD gcControl nIter
        groupingPvalue_thresh seed fuel = .ok (fs, infos) →
      ∀ j, (∀ info ∈ infos, j ∉ info.idx2Used ∧ j ∉ info.idx2QCed) →
        fs.imputedZ j = 0 ∧ fs.rsq j = 0 ∧ fs.zScore_e j = 0) := by
  constructor
  · exact oneIteration_frame_aux
  · intro O LDmat markerSize nSample zScore pValueThreshold propSVD gcControl nIter
      groupingPvalue_thresh seed fuel fs infos h j hj
    rw [dentist] at h
    split at h
    · exact absurd h (by simp)
    · rename_i randOrder hro
      exact dentistLoop_frame O LDmat nSample zScore pValueThreshold propSVD gcControl
        (groupingGWASOf O zScore groupingPvalue_thresh) fuel nIter 0 _ fs infos h j hj

/-- Witness for C8 on the concrete 6-marker run: marker 4 is in the reference
half throughout and keeps the zero defaults. -/
theorem oneIteration_dentist_frame_witness :
    dentist6Res.1.imputedZ 4 = 0 ∧ dentist6Res.1.rsq 4 = 0 ∧ dentist6Res.1.zScore_e 4 = 0 :=
  oneIteration_dentist_frame.2 oraclesEx ldId 6 6 (fun _ => 0) (1 / 2) 1 false 1 (1 / 100) 0 10
    dentist6Res.1 dentist6Res.2 (by with_unfolding_all rfl) 4 (by with_unfolding_all decide)

theorem survivorFilter_spec (grouping : ℕ → ℕ) (z_e : ℕ → ℚ) (th1 th0 : ℚ) :
    ∀ (l : List ℕ) (iterID : ℕ → ℤ),
      (survivorFilter grouping z_e th1 th0 l iterID).1.length ≤ l.length ∧
      ∀ i, iterID i ≤ (survivorFilter grouping z_e th1 th0 l iterID).2 i := by
  intro l
  induction l with
  | nil =>
    intro iterID
    exact ⟨le_refl _, fun i => le_refl _⟩
  | cons a rest ih =>
    intro iterID
    rw [survivorFilter]
    by_cases hc : (grouping a = 1 ∧ |z_e a| ≤ th1) ∨ (grouping a = 0 ∧ |z_e a| ≤ th0)
    · rw [if_pos hc]
      constructor
      · show (a :: (survivorFilter grouping z_e th1 th0 rest
          (updFn iterID a (iterID a + 1))).1).length ≤ (a :: rest).length
        have h1 := (ih (updFn iterID a (iterID a + 1))).1
        simp only [List.length_cons]
        omega
      · intro i
        have h2 := (ih (updFn iterID a (iterID a + 1))).2 i
        refine le_trans ?_ h2
        unfold updFn
        by_cases he : i = a
        · subst he
          rw [if_pos rfl]
          omega
        · rw [if_neg he]
    · rw [if_neg hc]
      refine ⟨?_, (ih iterID).2⟩
      have h1 := (ih iterID).1
      simp only [List.length_cons]
      omega

theorem dentistRound_mono (O : Oracles) (LDmat : ℕ → ℕ → ℚ) (nSample : ℕ) (zScore : ℕ → ℚ)
    (pValueThreshold propSVD : ℚ) (gcControl : Bool) (grouping : ℕ → ℕ) (fuel t : ℕ) :
    ∀ (st st1 : DState) (info : RoundInfo),
      dentistRound O LDmat nSample zScore pValueThreshold propSVD gcControl grouping fuel t st =
        .ok (st1, info) →
      (∀ i, st.iterID i ≤ st1.iterID i) ∧
      (gcControl = false → st1.fullIdx.length ≤ st.fullIdx.length) := by
  intro st st1 info h
  simp only [dentistRound] at h
  split at h
  · exact absurd h (by simp)
  · rename_i s1 hs1
    split at h
    · exact absurd h (by simp)
    · rename_i th hth
      split at h
      · exact absurd h (by simp)
      · rename_i th1 hth1
        split at h
        · exact absurd h (by simp)
        · rename_i th0 hth0
          split at h
          · exact absurd h (by simp)
          · rename_i s2 hs2
            split at h
            · exact absurd h (by simp)
            · rename_i randOrder hro
              injection h with hpair
              injection hpair with hst hinfo
              subst hst
              constructor
              · intro i
                exact (survivorFilter_spec grouping s2.zScore_e th1 th0 st.fullIdx st.iterID).2 i
              · intro hgc
                subst hgc
                show (survivorFilter grouping s2.zScore_e th1 th0 st.fullIdx st.iterID).1.length ≤
                  st.fullIdx.length
                exact (survivorFilter_spec grouping s2.zScore_e th1 th0 st.fullIdx st.iterID).1

/-- C5 (amended): across the rounds of the loop, every marker's `iterID`
survival count never decreases (it is only ever incremented); and with the
genomic-control branch disabled the active-set size is non-increasing.  With
genomic control enabled the (spec-modelled) branch appends already-retained
survivors a second time, so the active set can grow — see the
counterexample. -/
theorem dentist_monotonicity :
    ∀ (O : Oracles) (LDmat : ℕ → ℕ → ℚ) (nSample : ℕ) (zScore : ℕ → ℚ)
      (pValueThreshold propSVD : ℚ) (gcControl : Bool) (grouping : ℕ → ℕ)
      (fuel rem t : ℕ) (st stF : DState) (infos : List RoundInfo),
      dentistLoop O LDmat nSample zScore pValueThreshold propSVD gcControl grouping fuel t rem
        st = .ok (stF, infos) →
      (∀ i, st.iterID i ≤ stF.iterID i) ∧
      (gcControl = false → stF.fullIdx.length ≤ st.fullIdx.length) := by
  intro O LDmat nSample zScore pValueThreshold propSVD gcControl grouping fuel rem
  induction rem with
  | zero =>
    intro t st stF infos h
    rw [dentistLoop] at h
    injection h with hpair
    injection hpair with h1 h2
    subst h1
    exact ⟨fun i => le_refl _, fun _ => le_refl _⟩
  | succ rem ih =>
    intro t st stF infos h
    rw [dentistLoop] at h
    split at h
    · exact absurd h (by simp)
    · rename_i st1 info hr
      split at h
      · exact absurd h (by simp)
      · rename_i stF2 infos2 hl
        injection h with hpair
        injection hpair with h1 h2
        subst h1
        obtain ⟨hr1, hr2⟩ :=
          dentistRound_mono O LDmat nSample zScore pValueThreshold propSVD gcControl grouping
            fuel t st st1 info hr
        obtain ⟨hl1, hl2⟩ := ih _ _ _ _ hl
        refine ⟨fun i => le_trans (hr1 i) (hl1 i), fun hgc => le_trans (hl2 hgc) (hr2 hgc)⟩

/-- Witness for C5's amended statement on the concrete 6-marker loop. -/
theorem dentist_monotonicity_witness :
    (d6start.iterID 0 ≤ d6LoopRes.1.iterID 0) ∧ d6LoopRes.1.fullIdx.length ≤ d6start.fullIdx.length := by
  have h := dentist_monotonicity oraclesEx ldId 6 (fun _ => 0) (1 / 2) 1 false d6grouping
    10 1 0 d6start d6LoopRes.1 d6LoopRes.2 (by with_unfolding_all rfl)
  exact ⟨h.1 0, h.2 rfl⟩

/-- Counterexample to C5 as stated: in the concrete 5-marker run with genomic
control enabled, the active set grows from 5 markers to 7 entries after one
round (every survivor of the threshold filter is appended again by the
genomic-control branch), so the active-set size is not non-increasing. -/
theorem dentist_monotonicity_counterexample :
    (Except.map (fun p => p.2.map (fun info => info.fullIdxAfter.length)) dentistGC).toOption =
      some [7] ∧ 5 < 7 := by
  constructor
  · with_unfolding_all decide
  · omega

/-- Counterexample to C1 as stated: in the completing 6-marker run the only
round's reference and target sets have sizes 2 and 4 — an exact partition of
the 6 active markers, but with a size difference of 2, not at most 1. -/
theorem partitionIdx_exact_counterexample :
    (Except.map (fun p => p.2.map (fun info => (info.idxUsed.length, info.idx2Used.length)))
      dentist6).toOption = some [(2, 4)] ∧ 1 < 4 - 2 := by
  constructor
  · with_unfolding_all decide
  · omega
